import Mathlib

/-!
Verification of the LFG dungeon-queue program (`src/P2/main.cpp`) against its
natural-language specification.  The C++ program is shallowly embedded:

* the shared player pool and `try_form_party` (main.cpp lines 42-46, 124-135)
  become a `Pool` structure and a pure function;
* the startup validation of the duration bounds (main.cpp lines 194-212)
  becomes `validate_times` / `validate_config`;
* the tail of `run_dungeon` after the slot scan (main.cpp lines 99-122)
  becomes `run_dungeon_finish`;
* the dispatcher control loop together with the arrival thread
  (main.cpp lines 137-172 and 244-265) become a labelled transition system
  `dstep` on `DState`, one label per lock-protected critical section;
* the counting semaphore, the instance-status/stats vectors and the
  per-party worker lifecycle (main.cpp lines 16-33, 35-39, 66-122) become a
  labelled transition system `wstep` on `WState`.

Machine integers are modelled as `Int` (the program only ever adds or
subtracts small values, far from any overflow, and the C++ `int` is signed).
-/

namespace Spec2Proof

/-! ## Player pool (main.cpp lines 42-46, 124-135) -/

/-- The shared player pool `g_tanks`, `g_healers`, `g_dps`
(main.cpp lines 43-45); all three are C++ `int`s. -/
structure Pool where
  tanks : Int
  healers : Int
  dps : Int
deriving DecidableEq, Repr

/-- Function `try_form_party` (main.cpp lines 126-135): under `g_data_mutex`, if
`g_tanks >= 1 && g_healers >= 1 && g_dps >= 3` deduct `(1,1,3)` and return
`true`, otherwise return `false` leaving the pool untouched.  The lock makes
the whole body one atomic step, so it is embedded as a pure function from the
pre-state to (result, post-state). -/
def try_form_party (p : Pool) : Bool × Pool :=
  if 1 ≤ p.tanks ∧ 1 ≤ p.healers ∧ 3 ≤ p.dps then
    (true, ⟨p.tanks - 1, p.healers - 1, p.dps - 3⟩)
  else
    (false, p)

/-- A pool can form a party exactly when `try_form_party` would succeed on it. -/
def composable (p : Pool) : Bool := (try_form_party p).1

/-- The arrival thread's pool update (main.cpp lines 154-159): under
`g_data_mutex`, add the drawn amounts to the three counters. -/
def add_players (p : Pool) (t h d : Int) : Pool :=
  ⟨p.tanks + t, p.healers + h, p.dps + d⟩

/-- All three pool counters are non-negative. -/
def pool_nonneg (p : Pool) : Prop := 0 ≤ p.tanks ∧ 0 ≤ p.healers ∧ 0 ≤ p.dps

instance (p : Pool) : Decidable (pool_nonneg p) := by
  unfold pool_nonneg; infer_instance

/-! ## Startup validation (main.cpp lines 194-212) -/

/-- Result of the duration-bound adjustment (main.cpp lines 199-208): the
final `t1`/`t2` values and which of the two warnings were printed. -/
structure TimeValidation where
  t1 : Int
  t2 : Int
  warned_swap : Bool
  warned_clamp : Bool
deriving DecidableEq, Repr

/-- Lines 199-200: a negative bound is silently raised to `0`. -/
def raise0 (t : Int) : Int := if t < 0 then 0 else t

/-- The duration-bound adjustment of `main` (main.cpp lines 199-208):
raise negatives to `0`; if `t1 > t2` swap them with a warning; if the
(possibly swapped) `t2` exceeds `15` clamp it to `15` with a warning.
Note that only `t2` is ever clamped. -/
def validate_times (t1 t2 : Int) : TimeValidation :=
  let a := raise0 t1
  let b := raise0 t2
  if a > b then
    { t1 := b
      t2 := if a > 15 then 15 else a
      warned_swap := true
      warned_clamp := decide (a > 15) }
  else
    { t1 := a
      t2 := if b > 15 then 15 else b
      warned_swap := false
      warned_clamp := decide (b > 15) }

/-- The two fatal startup-configuration errors (main.cpp lines 195-198 and
209-212). -/
inductive ConfigError where
  | nonPositiveN
  | negativePlayers
deriving DecidableEq, Repr

/-- The validated startup configuration. -/
structure Config where
  n : Int
  tanks : Int
  healers : Int
  dps : Int
  times : TimeValidation
deriving DecidableEq, Repr

/-- The whole input-validation block of `main` (main.cpp lines 194-212):
`n <= 0` is fatal, negative player counts are fatal, the duration bounds are
adjusted but never fatal. -/
def validate_config (n tanks healers dps t1 t2 : Int) : Except ConfigError Config :=
  if n ≤ 0 then .error .nonPositiveN
  else
    let tv := validate_times t1 t2
    if tanks < 0 ∨ healers < 0 ∨ dps < 0 then .error .negativePlayers
    else .ok ⟨n, tanks, healers, dps, tv⟩

/-! ## Worker behaviour after the slot scan (main.cpp lines 91-122) -/

/-- Observable outcome of the tail of `run_dungeon` (main.cpp lines 99-122),
as a function of the `instance_id` produced by the slot scan.  The code has
no abort / exit / throw on any path: both branches fall through to the
finish message and to `g_instance_slots->release()`. -/
structure WorkerFinish where
  error_logged : Bool
  stats_updated : Bool
  gate_released : Bool
  aborted : Bool
deriving DecidableEq, Repr

/-- main.cpp lines 103-121: if `instance_id >= 0` the stats are updated;
otherwise an `ERROR` line is printed; in both cases the worker then prints
the finish message, releases the semaphore slot and returns normally. -/
def run_dungeon_finish (instance_id : Int) : WorkerFinish :=
  if 0 ≤ instance_id then
    { error_logged := false, stats_updated := true, gate_released := true, aborted := false }
  else
    { error_logged := true, stats_updated := false, gate_released := true, aborted := false }

/-! ## Concurrent callers of `try_form_party`

`try_form_party`'s body runs entirely under `g_data_mutex`, so `k` concurrent
calls are serialized into some order; a scheduling interleaving is exactly the
list of caller identities in that order.  `run_schedule` returns, for each
caller in schedule order, the result that caller's call returns. -/

def run_schedule (p : Pool) : List Nat → List (Nat × Bool)
  | [] => []
  | c :: rest =>
    let r := try_form_party p
    (c, r.1) :: run_schedule r.2 rest

/-- Inventory exactly sufficient for one party. -/
def pool_exact : Pool := ⟨1, 1, 3⟩

/-! ## Dispatcher control loop and arrival thread (main.cpp lines 137-172, 244-265)

The dispatcher loop of `main` and the arrival thread share `g_data_mutex`;
every access to the pool or to `g_arrival_done` is one lock-protected
critical section, so each becomes one transition label:

* `composeStep` — one `try_form_party()` call of the inner `while`
  (line 251); on success the loop body spawns a worker and sets
  `formed_any = true`, on failure the inner `while` falls through to the
  `done` check;
* `checkStep` — the locked read of `g_arrival_done` (lines 258-261),
  breaking out of the outer loop iff `done && !formed_any`;
* `sleepStep` — the 100 ms sleep (line 264) followed by the next iteration's
  `formed_any = false` (line 250);
* `arrivalAdd t h d` — one arrival cycle's locked pool update
  (lines 154-159); the drawn amounts lie in `[0,2]`, `[0,2]`, `[0,6]`
  (lines 142-144);
* `arrivalFinish` — the arrival thread's final locked write
  `g_arrival_done = true` (lines 168-171), possible only after its `cycles`
  iterations are exhausted. -/

/-- Program counter of the dispatcher loop. -/
inductive DPC where
  | compose
  | check
  | sleep
  | exit
deriving DecidableEq, Repr

/-- One lock-protected critical section of the dispatcher or arrival thread. -/
inductive DEvent where
  | composeStep
  | checkStep
  | sleepStep
  | arrivalAdd (t h d : Int)
  | arrivalFinish
deriving DecidableEq, Repr

/-- Shared state of the dispatcher loop and the arrival thread. -/
structure DState where
  pool : Pool
  done : Bool
  cyclesLeft : Nat
  pc : DPC
  formedAny : Bool
  spawned : Nat
deriving DecidableEq, Repr

/-- One step of the dispatcher/arrival system: `none` when the label is not
enabled in the given state. -/
def dstep (s : DState) : DEvent → Option DState
  | .composeStep =>
    if s.pc = .compose then
      let r := try_form_party s.pool
      if r.1 then
        some { s with pool := r.2, spawned := s.spawned + 1, formedAny := true }
      else
        some { s with pc := .check }
    else none
  | .checkStep =>
    if s.pc = .check then
      if s.done = true ∧ s.formedAny = false then some { s with pc := .exit }
      else some { s with pc := .sleep }
    else none
  | .sleepStep =>
    if s.pc = .sleep then some { s with pc := .compose, formedAny := false }
    else none
  | .arrivalAdd t h d =>
    if 0 < s.cyclesLeft ∧ 0 ≤ t ∧ t ≤ 2 ∧ 0 ≤ h ∧ h ≤ 2 ∧ 0 ≤ d ∧ d ≤ 6 then
      some { s with pool := add_players s.pool t h d, cyclesLeft := s.cyclesLeft - 1 }
    else none
  | .arrivalFinish =>
    if s.cyclesLeft = 0 ∧ s.done = false then some { s with done := true }
    else none

/-- Run a list of steps from a state; `none` if some step is not enabled. -/
def drun : DState → List DEvent → Option DState
  | s, [] => some s
  | s, e :: rest =>
    match dstep s e with
    | some s' => drun s' rest
    | none => none

/-- Initial dispatcher state for a validated configuration: the pool holds
the initial player counts (main.cpp lines 226-232), `done` is `false`, the
arrival thread has all its cycles ahead of it, and the loop is about to make
its first compose attempt (lines 247-248). -/
def dinit (p : Pool) (cycles : Nat) : DState :=
  { pool := p, done := false, cyclesLeft := cycles, pc := .compose
    formedAny := false, spawned := 0 }

/-- Checks, along a run, whether after the first `checkStep` that reads
`done = true` at least one further `composeStep` occurs: `some true` / `some
false` when the run is valid (also `some true` when `done = true` is never
observed, the claim being vacuous there), `none` when some step is not
enabled. -/
def attemptAfterFirstObs : DState → List DEvent → Option Bool
  | _, [] => some true
  | s, e :: rest =>
    match dstep s e with
    | some s' =>
      if e = DEvent.checkStep ∧ s.done = true then
        some (rest.any fun x => decide (x = DEvent.composeStep))
      else
        attemptAfterFirstObs s' rest
    | none => none

/-! ### Generic run induction and step facts for the dispatcher model -/

/-- A property preserved by every enabled step is preserved by every run. -/
theorem drun_preserve {P : DState → Prop}
    (hstep : ∀ s e s', dstep s e = some s' → P s → P s') :
    ∀ evs s s', drun s evs = some s' → P s → P s' := by
  intro evs
  induction evs with
  | nil => intro s s' h hP; cases h; exact hP
  | cons e rest ih =>
    intro s s' h hP
    unfold drun at h
    cases he : dstep s e with
    | none => rw [he] at h; cases h
    | some s1 => rw [he] at h; exact ih s1 s' h (hstep s e s1 he hP)

/-- When the pool suffices, `try_form_party` succeeds and deducts `(1,1,3)`. -/
theorem try_form_party_pos {p : Pool} (h : 1 ≤ p.tanks ∧ 1 ≤ p.healers ∧ 3 ≤ p.dps) :
    try_form_party p = (true, ⟨p.tanks - 1, p.healers - 1, p.dps - 3⟩) :=
  if_pos h

/-- When the pool does not suffice, `try_form_party` fails and changes nothing. -/
theorem try_form_party_neg {p : Pool} (h : ¬(1 ≤ p.tanks ∧ 1 ≤ p.healers ∧ 3 ≤ p.dps)) :
    try_form_party p = (false, p) :=
  if_neg h

/-- The post-pool of `try_form_party` stays non-negative. -/
theorem pool_nonneg_after {p : Pool} (hp : pool_nonneg p) :
    pool_nonneg (try_form_party p).2 := by
  obtain ⟨h1, h2, h3⟩ := hp
  unfold try_form_party
  split
  · rename_i hge
    refine ⟨?_, ?_, ?_⟩ <;> simp <;> omega
  · exact ⟨h1, h2, h3⟩

/-- Every enabled step preserves `done = true`. -/
theorem dstep_done_mono (s : DState) (e : DEvent) (s' : DState)
    (h : dstep s e = some s') (hd : s.done = true) : s'.done = true := by
  cases e with
  | composeStep =>
    simp only [dstep] at h
    split at h
    · split at h <;> (cases h; exact hd)
    · cases h
  | checkStep =>
    simp only [dstep] at h
    split at h
    · split at h <;> (cases h; exact hd)
    · cases h
  | sleepStep =>
    simp only [dstep] at h
    split at h
    · cases h; exact hd
    · cases h
  | arrivalAdd t hh d =>
    simp only [dstep] at h
    split at h
    · cases h; exact hd
    · cases h
  | arrivalFinish =>
    simp only [dstep] at h
    split at h
    · cases h; rfl
    · cases h

/-- Every enabled step preserves pool non-negativity. -/
theorem dstep_pool_nonneg (s : DState) (e : DEvent) (s' : DState)
    (h : dstep s e = some s') (hp : pool_nonneg s.pool) : pool_nonneg s'.pool := by
  cases e with
  | composeStep =>
    simp only [dstep] at h
    split at h
    · split at h
      · cases h; exact pool_nonneg_after hp
      · cases h; exact hp
    · cases h
  | checkStep =>
    simp only [dstep] at h
    split at h
    · split at h <;> (cases h; exact hp)
    · cases h
  | sleepStep =>
    simp only [dstep] at h
    split at h
    · cases h; exact hp
    · cases h
  | arrivalAdd t hh d =>
    simp only [dstep] at h
    split at h
    · cases h
      rename_i hc
      obtain ⟨hp1, hp2, hp3⟩ := hp
      unfold add_players pool_nonneg
      simp only
      omega
    · cases h
  | arrivalFinish =>
    simp only [dstep] at h
    split at h
    · cases h; exact hp
    · cases h

/-- The only enabled step that changes `done` is `arrivalFinish`, and it
changes it from `false` to `true` after the last arrival cycle. -/
theorem dstep_done_writer (s : DState) (e : DEvent) (s' : DState)
    (h : dstep s e = some s') (hne : s'.done ≠ s.done) :
    e = DEvent.arrivalFinish ∧ s.done = false ∧ s'.done = true ∧ s.cyclesLeft = 0 := by
  cases e with
  | composeStep =>
    simp only [dstep] at h
    split at h
    · split at h <;> (cases h; exact absurd rfl hne)
    · cases h
  | checkStep =>
    simp only [dstep] at h
    split at h
    · split at h <;> (cases h; exact absurd rfl hne)
    · cases h
  | sleepStep =>
    simp only [dstep] at h
    split at h
    · cases h; exact absurd rfl hne
    · cases h
  | arrivalAdd t hh d =>
    simp only [dstep] at h
    split at h
    · cases h; exact absurd rfl hne
    · cases h
  | arrivalFinish =>
    simp only [dstep] at h
    split at h
    · cases h
      rename_i hc
      exact ⟨rfl, hc.2, rfl, hc.1⟩
    · cases h

/-- Once `done` is `true` the `arrivalFinish` step is disabled: `done` is
written at most once. -/
theorem dstep_finish_disabled (s : DState) (hd : s.done = true) :
    dstep s DEvent.arrivalFinish = none := by
  simp only [dstep]
  split
  · rename_i hc; rw [hd] at hc; cases hc.2
  · rfl

/-- The only enabled steps that change the pool are `composeStep` (the
compose-or-noop operation) and `arrivalAdd` (the arrival-add operation). -/
theorem dstep_pool_writer (s : DState) (e : DEvent) (s' : DState)
    (h : dstep s e = some s') (hne : s'.pool ≠ s.pool) :
    e = DEvent.composeStep ∨ ∃ t hh d, e = DEvent.arrivalAdd t hh d := by
  cases e with
  | composeStep => exact Or.inl rfl
  | checkStep =>
    simp only [dstep] at h
    split at h
    · split at h <;> (cases h; exact absurd rfl hne)
    · cases h
  | sleepStep =>
    simp only [dstep] at h
    split at h
    · cases h; exact absurd rfl hne
    · cases h
  | arrivalAdd t hh d => exact Or.inr ⟨t, hh, d, rfl⟩
  | arrivalFinish =>
    simp only [dstep] at h
    split at h
    · cases h; exact absurd rfl hne
    · cases h

/-- An enabled step enters `pc = exit` only from the `done` check, with
`done` observed `true` and no party formed in that loop iteration, and it
enters `pc = check` only through a `composeStep` that failed on a
non-composable pool, leaving the pool unchanged. -/
theorem dstep_exit_entry (s : DState) (e : DEvent) (s' : DState)
    (h : dstep s e = some s') :
    (s'.pc = DPC.exit → s.pc ≠ DPC.exit →
      e = DEvent.checkStep ∧ s.pc = DPC.check ∧ s.done = true ∧
        s.formedAny = false ∧ s'.pool = s.pool) ∧
    (s'.pc = DPC.check → s.pc ≠ DPC.check →
      e = DEvent.composeStep ∧ composable s.pool = false ∧ s'.pool = s.pool) := by
  cases e with
  | composeStep =>
    simp only [dstep] at h
    split at h
    · rename_i hpc
      split at h
      · cases h
        refine ⟨fun hx _ => ?_, fun hx _ => ?_⟩ <;> simp [hpc] at hx
      · rename_i hfail
        cases h
        refine ⟨fun hx _ => ?_, fun _ _ => ⟨rfl, ?_, rfl⟩⟩
        · simp at hx
        · have hcf : (try_form_party s.pool).1 = false := by
            cases hb : (try_form_party s.pool).1
            · rfl
            · exact absurd hb hfail
          exact hcf
    · cases h
  | checkStep =>
    simp only [dstep] at h
    split at h
    · rename_i hpc
      split at h
      · rename_i hc
        cases h
        refine ⟨fun _ _ => ⟨rfl, hpc, hc.1, hc.2, rfl⟩, fun hx _ => ?_⟩
        simp at hx
      · cases h
        refine ⟨fun hx _ => ?_, fun hx _ => ?_⟩ <;> simp at hx
    · cases h
  | sleepStep =>
    simp only [dstep] at h
    split at h
    · cases h
      refine ⟨fun hx _ => ?_, fun hx _ => ?_⟩ <;> simp at hx
    · cases h
  | arrivalAdd t hh d =>
    simp only [dstep] at h
    split at h
    · cases h
      exact ⟨fun hx hne => absurd hx hne, fun hx hne => absurd hx hne⟩
    · cases h
  | arrivalFinish =>
    simp only [dstep] at h
    split at h
    · cases h
      exact ⟨fun hx hne => absurd hx hne, fun hx hne => absurd hx hne⟩
    · cases h

/-! ### Concrete dispatcher runs used by the claim theorems -/

/-- Empty initial pool, one arrival cycle still to come. -/
def c1s0 : DState := dinit ⟨0, 0, 0⟩ 1

/-- The race run: the dispatcher's compose attempt fails on the empty pool;
the arrival thread then adds a full composable party `(1,1,3)` and sets
`done`; the dispatcher's `done` check now sees `done = true` with
`formed_any = false` and exits. -/
def c1evs : List DEvent :=
  [DEvent.composeStep, DEvent.arrivalAdd 1 1 3, DEvent.arrivalFinish, DEvent.checkStep]

/-- Final state of the race run: loop exited, pool still composable. -/
def c1final : DState :=
  { pool := ⟨1, 1, 3⟩, done := true, cyclesLeft := 0, pc := DPC.exit
    formedAny := false, spawned := 0 }

/-- A state sitting at the `done` check with `done` already set. -/
def c1wa : DState :=
  { pool := ⟨0, 0, 0⟩, done := true, cyclesLeft := 0, pc := DPC.check
    formedAny := false, spawned := 0 }

/-- The state after `c1wa` takes the `checkStep` transition. -/
def c1wb : DState :=
  { pool := ⟨0, 0, 0⟩, done := true, cyclesLeft := 0, pc := DPC.exit
    formedAny := false, spawned := 0 }

/-- A state carrying `done = true`, used to instantiate the `done`-flag
theorem. -/
def c7s : DState :=
  { pool := ⟨0, 0, 0⟩, done := true, cyclesLeft := 0, pc := DPC.check
    formedAny := false, spawned := 0 }

/-- State `c7s` after its `done` check (which exits the loop). -/
def c7s' : DState :=
  { pool := ⟨0, 0, 0⟩, done := true, cyclesLeft := 0, pc := DPC.exit
    formedAny := false, spawned := 0 }

/-- Initial state for the pool-nonnegativity witness. -/
def c8s : DState := dinit ⟨2, 1, 3⟩ 1

/-- State `c8s` after one successful compose and one arrival add. -/
def c8final : DState :=
  { pool := ⟨3, 2, 6⟩, done := false, cyclesLeft := 0, pc := DPC.compose
    formedAny := true, spawned := 1 }

/-- Claim C1 (counterexample): the dispatcher loop does NOT always perform a
further `try_form_party` attempt after first observing `done = true`.  In the
exhibited run the loop's compose attempt fails, the arrival thread then adds
a composable party and sets `done`, and the loop's very first observation of
`done = true` (with `formed_any` still `false`) exits immediately:
`attemptAfterFirstObs` reports `false` (no compose attempt follows the first
`done = true` observation) and the exited state still holds the composable
pool `(1,1,3)` that was added before `done` was observed. -/
theorem dispatcher_exit_race_counterexample :
    drun c1s0 c1evs = some c1final ∧
    c1final.pc = DPC.exit ∧
    attemptAfterFirstObs c1s0 c1evs = some false ∧
    composable c1final.pool = true ∧
    c1final.done = true := by
  decide

/-- Claim C1 (amended): the loop exits only from its `done` check, having
observed `done = true` with no party formed in that iteration, and the check
is reached only through a `try_form_party` attempt that failed on a
non-composable pool and left it unchanged — i.e. the final compose attempt
precedes the `done` observation instead of following it, so players arriving
between that failed attempt and the observation can remain composable at
exit. -/
theorem dispatcher_exit_discipline (s : DState) (e : DEvent) (s' : DState)
    (h : dstep s e = some s') :
    (s'.pc = DPC.exit → s.pc ≠ DPC.exit →
      e = DEvent.checkStep ∧ s.pc = DPC.check ∧ s.done = true ∧
        s.formedAny = false ∧ s'.pool = s.pool) ∧
    (s'.pc = DPC.check → s.pc ≠ DPC.check →
      e = DEvent.composeStep ∧ composable s.pool = false ∧ s'.pool = s.pool) :=
  dstep_exit_entry s e s' h

/-- Witness for `dispatcher_exit_discipline` at a concrete exiting step. -/
theorem dispatcher_exit_discipline_witness :
    DEvent.checkStep = DEvent.checkStep ∧ c1wa.pc = DPC.check ∧ c1wa.done = true ∧
      c1wa.formedAny = false ∧ c1wb.pool = c1wa.pool :=
  (dispatcher_exit_discipline c1wa DEvent.checkStep c1wb (by decide)).1
    (by decide) (by decide)

/-- Claim C7: the `done` flag (`g_arrival_done`) is monotonic: it is `false`
in every initial state, any run from a state with `done = true` keeps it
`true`, the only step that changes it is the arrival thread's final
`arrivalFinish` (flipping `false` to `true` after the last cycle), and once
`done` is `true` that step is disabled, so the flag is written at most once. -/
theorem done_flag_monotonic (s : DState) :
    (∀ evs s', drun s evs = some s' → s.done = true → s'.done = true) ∧
    (∀ e s', dstep s e = some s' → s'.done ≠ s.done →
      e = DEvent.arrivalFinish ∧ s.done = false ∧ s'.done = true ∧ s.cyclesLeft = 0) ∧
    (s.done = true → dstep s DEvent.arrivalFinish = none) ∧
    (∀ p c, (dinit p c).done = false) :=
  ⟨fun evs s' h hd => drun_preserve dstep_done_mono evs s s' h hd,
   dstep_done_writer s,
   dstep_finish_disabled s,
   fun _ _ => rfl⟩

/-- Witness for `done_flag_monotonic`: from a concrete state with
`done = true`, the state after its `done` check still has `done = true`. -/
theorem done_flag_monotonic_witness : c7s'.done = true :=
  (done_flag_monotonic c7s).1 [DEvent.checkStep] c7s' (by decide) rfl

/-- Claim C8: in every state reachable from a state whose pool counters are
non-negative, the counters stay non-negative, and the only steps that change
the pool are the compose-or-noop operation and the arrival-add operation. -/
theorem pool_counters_nonneg (s : DState) :
    (∀ evs s', drun s evs = some s' → pool_nonneg s.pool → pool_nonneg s'.pool) ∧
    (∀ e s', dstep s e = some s' → s'.pool ≠ s.pool →
      e = DEvent.composeStep ∨ ∃ t hh d, e = DEvent.arrivalAdd t hh d) :=
  ⟨fun evs s' h hp => drun_preserve dstep_pool_nonneg evs s s' h hp,
   dstep_pool_writer s⟩

/-- Witness for `pool_counters_nonneg` on a concrete two-step run. -/
theorem pool_counters_nonneg_witness : pool_nonneg c8final.pool :=
  (pool_counters_nonneg c8s).1 [DEvent.composeStep, DEvent.arrivalAdd 2 2 6]
    c8final (by decide) (by decide)

/-! ### Pure-function claims -/

/-- Claim C2: `try_form_party` returns `true` with post-state
`(tanks-1, healers-1, dps-3)` iff the pre-state has `tanks ≥ 1`,
`healers ≥ 1` and `dps ≥ 3`; otherwise it returns `false` and leaves the
three counters exactly unchanged. -/
theorem try_form_party_correct (p : Pool) :
    (try_form_party p = (true, ⟨p.tanks - 1, p.healers - 1, p.dps - 3⟩) ↔
      1 ≤ p.tanks ∧ 1 ≤ p.healers ∧ 3 ≤ p.dps) ∧
    (¬(1 ≤ p.tanks ∧ 1 ≤ p.healers ∧ 3 ≤ p.dps) → try_form_party p = (false, p)) := by
  refine ⟨⟨fun h => ?_, try_form_party_pos⟩, try_form_party_neg⟩
  by_contra hc
  rw [try_form_party_neg hc] at h
  have := congrArg Prod.fst h
  simp at this

/-- Witness for `try_form_party_correct` on an insufficient pool. -/
theorem try_form_party_correct_witness :
    try_form_party ⟨0, 1, 3⟩ = (false, ⟨0, 1, 3⟩) :=
  (try_form_party_correct ⟨0, 1, 3⟩).2 (by decide)

/-- A pool on which `try_form_party` fails is returned unchanged, so every
later call fails the same way. -/
theorem run_schedule_stuck (p : Pool) (hp : composable p = false) :
    ∀ l : List Nat, run_schedule p l = l.map fun c => (c, false) := by
  have hfp : try_form_party p = (false, p) := by
    by_cases hc : 1 ≤ p.tanks ∧ 1 ≤ p.healers ∧ 3 ≤ p.dps
    · exfalso
      unfold composable at hp
      rw [try_form_party_pos hc] at hp
      cases hp
    · exact try_form_party_neg hc
  intro l
  induction l with
  | nil => rfl
  | cons c rest ih =>
    simp only [run_schedule, hfp, List.map]
    exact congrArg _ ih

/-- Claim C9: `try_form_party`'s body is one critical section under
`g_data_mutex`, so `k` concurrent callers are serialized into a schedule
(the list of caller identities in lock-acquisition order).  Starting from
inventory exactly sufficient for one party, for every schedule exactly one
call returns `true` (the schedule's first caller) and the other `k-1`
return `false`: no two callers both observe sufficiency and deduct. -/
theorem try_form_party_mutual_exclusion (sched : List Nat) (hk : 1 ≤ sched.length) :
    (run_schedule pool_exact sched).countP (fun r => r.2) = 1 ∧
    (run_schedule pool_exact sched).countP (fun r => !r.2) = sched.length - 1 ∧
    (∀ pr ∈ run_schedule pool_exact sched, pr.2 = true → sched.head? = some pr.1) := by
  cases sched with
  | nil => simp at hk
  | cons c rest =>
    have hfirst : try_form_party pool_exact = (true, ⟨0, 0, 0⟩) := by decide
    have hstuck := run_schedule_stuck ⟨0, 0, 0⟩ (by decide) rest
    simp only [run_schedule, hfirst, hstuck]
    refine ⟨?_, ?_, ?_⟩
    · simp [List.countP_cons, List.countP_map, Function.comp]
    · simp [List.countP_cons, List.countP_map, Function.comp]
    · intro pr hpr h2
      rcases List.mem_cons.mp hpr with h | h
      · subst h; rfl
      · obtain ⟨x, _, rfl⟩ := List.mem_map.mp h
        cases h2

/-- Witness for `try_form_party_mutual_exclusion` with two callers. -/
theorem try_form_party_mutual_exclusion_witness :
    (run_schedule pool_exact [7, 3]).countP (fun r => r.2) = 1 :=
  (try_form_party_mutual_exclusion [7, 3] (by decide)).1

/-- Claim C5 (counterexample): on input `(t1, t2) = (20, 30)` the validation
keeps `t1 = 20` but clamps only `t2`, down to `15`, so the final bounds
violate `t1 ≤ t2 ≤ 15`: only `t2` is ever clamped (main.cpp lines 205-208). -/
theorem time_bounds_counterexample :
    (validate_times 20 30).t1 = 20 ∧ (validate_times 20 30).t2 = 15 ∧
    (validate_times 20 30).t2 < (validate_times 20 30).t1 ∧
    15 < (validate_times 20 30).t1 := by
  decide

/-- Claim C5 (amended): validation raises negatives to non-negative, swaps
the two bounds (with a warning) if min > max, and clamps only `t2` to the
sanity bound `15` (with a warning, not a fatal error); the final bounds
satisfy `0 ≤ t1`, `0 ≤ t2 ≤ 15`, and `t1 ≤ t2` whenever `t1 ≤ 15` (a min
above `15` is left unclamped and then exceeds the clamped max). -/
theorem validate_times_bounds (t1 t2 : Int) :
    0 ≤ (validate_times t1 t2).t1 ∧ 0 ≤ (validate_times t1 t2).t2 ∧
    (validate_times t1 t2).t2 ≤ 15 ∧
    ((validate_times t1 t2).t1 ≤ 15 →
      (validate_times t1 t2).t1 ≤ (validate_times t1 t2).t2) := by
  have ha : 0 ≤ raise0 t1 := by unfold raise0; split <;> omega
  have hb : 0 ≤ raise0 t2 := by unfold raise0; split <;> omega
  simp only [validate_times]
  by_cases hab : raise0 t1 > raise0 t2
  · rw [if_pos hab]
    by_cases hc : raise0 t1 > 15
    · rw [if_pos hc]
      refine ⟨?_, ?_, ?_, ?_⟩ <;> dsimp only <;> (try intro h1) <;> omega
    · rw [if_neg hc]
      refine ⟨?_, ?_, ?_, ?_⟩ <;> dsimp only <;> (try intro h1) <;> omega
  · rw [if_neg hab]
    by_cases hc : raise0 t2 > 15
    · rw [if_pos hc]
      refine ⟨?_, ?_, ?_, ?_⟩ <;> dsimp only <;> (try intro h1) <;> omega
    · rw [if_neg hc]
      refine ⟨?_, ?_, ?_, ?_⟩ <;> dsimp only <;> (try intro h1) <;> omega

/-- Witness for `validate_times_bounds` at `(3, 10)`, where the final `t1`
is within the sanity bound and hence below the final `t2`. -/
theorem validate_times_bounds_witness :
    (validate_times 3 10).t1 ≤ (validate_times 3 10).t2 :=
  (validate_times_bounds 3 10).2.2.2 (by decide)

/-- Claim C6 (counterexample): when the slot scan leaves `instance_id = -1`,
the worker is NOT aborted and its termination is not distinct from a normal
finish: it logs the `ERROR` line, skips the stats update, then prints the
normal finish message and releases the gate permit exactly like a normal
worker (main.cpp lines 103-121). -/
theorem invariant_violation_counterexample :
    (run_dungeon_finish (-1)).aborted = false ∧
    (run_dungeon_finish (-1)).gate_released = true ∧
    (run_dungeon_finish (-1)).error_logged = true ∧
    (run_dungeon_finish (-1)).stats_updated = false := by
  decide

/-- Claim C6 (amended): a worker whose slot scan found no empty slot logs an
error message and skips the per-slot stats update, but it is not aborted and
continues its normal lifecycle, releasing the gate permit and finishing like
any other worker. -/
theorem no_slot_continues_normally (instance_id : Int) (h : instance_id < 0) :
    run_dungeon_finish instance_id =
      { error_logged := true, stats_updated := false
        gate_released := true, aborted := false } := by
  unfold run_dungeon_finish
  rw [if_neg (by omega)]

/-- Witness for `no_slot_continues_normally` at `instance_id = -1`. -/
theorem no_slot_continues_normally_witness :
    run_dungeon_finish (-1) =
      { error_logged := true, stats_updated := false
        gate_released := true, aborted := false } :=
  no_slot_continues_normally (-1) (by decide)

/-- Claim C10 (counterexample): on input `(t1, t2) = (3, -1)` — a negative
duration-bound input — a warning IS printed: the raise-to-zero itself is
silent, but the raised values leave `t1 > t2`, so the swap warning fires. -/
theorem negative_bounds_counterexample :
    (validate_times 3 (-1)).warned_swap = true ∧
    (validate_times 3 (-1)).t1 = 0 ∧
    (validate_times 3 (-1)).t2 = 3 := by
  decide

/-- Claim C10 (amended): negative duration bounds are never a fatal
configuration error — whether startup fails does not depend on the duration
bounds at all — and the raise-to-zero step itself is silent: when both
bounds are negative the result is exactly `(0, 0)` with no warning; but a
swap (or clamp) warning may still be printed after the raise. -/
theorem negative_bounds_never_fatal (n tanks healers dps t1 t2 : Int) :
    ((validate_config n tanks healers dps t1 t2).isOk =
      (validate_config n tanks healers dps 0 0).isOk) ∧
    (t1 < 0 → t2 < 0 → validate_times t1 t2 = ⟨0, 0, false, false⟩) := by
  constructor
  · unfold validate_config
    split
    · rfl
    · split <;> rfl
  · intro h1 h2
    unfold validate_times raise0
    rw [if_pos h1, if_pos h2]
    decide

/-- Witness for `negative_bounds_never_fatal` at both bounds negative. -/
theorem negative_bounds_never_fatal_witness :
    validate_times (-5) (-3) = ⟨0, 0, false, false⟩ :=
  (negative_bounds_never_fatal 1 0 0 0 (-5) (-3)).2 (by decide) (by decide)

/-! ## Slot gate, instance registry and worker lifecycle
(main.cpp lines 16-33, 35-39, 66-122)

The counting semaphore `g_instance_slots`, the status/stats vectors under
`g_data_mutex`, and the per-party worker threads running `run_dungeon` are
modelled as a second labelled transition system.  Each label is one
synchronized step of one thread; the scheduler chooses any enabled label,
so runs of `wstep` are exactly the interleavings of the workers' slot
acquire / claim / release steps. -/

/-- One instance slot: its status (`"empty"` = `false`, `"active"` = `true`,
main.cpp line 37) and its `g_parties_served` counter (line 38). -/
structure Slot where
  active : Bool
  served : Nat
deriving DecidableEq, Repr

/-- Lifecycle phase of one spawned worker running `run_dungeon`:
`waiting` — before `acquire()` returns (line 76); `holding` — gate permit
held, slot not yet claimed (between lines 76 and 81); `occupying i` — slot
`i` claimed and marked active (lines 82-89); `released` — slot phase done
(stats updated and slot set back to empty, lines 103-107, or the
`instance_id = -1` error path, lines 108-111) with the gate permit still
held; `finished` — after `g_instance_slots->release()` (line 121). -/
inductive WPhase where
  | waiting
  | holding
  | occupying (i : Nat)
  | released
  | finished
deriving DecidableEq, Repr

/-- One synchronized step of the gate/registry/worker subsystem. -/
inductive WEvent where
  | spawn
  | acquire (w : Nat)
  | claim (w : Nat)
  | finishSlot (w : Nat)
  | releaseGate (w : Nat)
deriving DecidableEq, Repr

/-- Shared state: the semaphore counter (a C++ `int`, main.cpp line 32),
the `N` slots, and the phases of the spawned workers (worker `w` is the
`w`-th party thread pushed into `party_threads`). -/
structure WState where
  permits : Int
  slots : List Slot
  workers : List WPhase
deriving DecidableEq, Repr

/-- Startup state (main.cpp lines 215-223): semaphore initialized to `n`,
`n` slots all `"empty"` with zero stats, no party threads yet. -/
def winit (n : Nat) : WState :=
  { permits := (n : Int), slots := List.replicate n ⟨false, 0⟩, workers := [] }

/-- The slot scan of `run_dungeon` (main.cpp lines 82-88): index of the
first `"empty"` slot in ascending order, if any. -/
def firstFree : List Slot → Option Nat
  | [] => none
  | sl :: rest => if sl.active then (firstFree rest).map (· + 1) else some 0

/-- One step of the system: `spawn` is the dispatcher's `emplace_back` of a
new party thread after a successful `try_form_party` (main.cpp line 253);
`acquire w` is the semaphore `acquire()` with its `count > 0` wait guard
(lines 19-23, 76); `claim w` is the locked scan-and-mark (lines 80-89) —
when no slot is empty the worker falls through with `instance_id = -1` and
later skips the stats update; `finishSlot w` is the locked stats update and
slot release (lines 103-107); `releaseGate w` is the semaphore `release()`
(lines 24-28, 121). -/
def wstep (s : WState) : WEvent → Option WState
  | .spawn => some { s with workers := s.workers ++ [WPhase.waiting] }
  | .acquire w =>
    match s.workers[w]? with
    | some WPhase.waiting =>
      if 0 < s.permits then
        some { s with permits := s.permits - 1
                      workers := s.workers.set w WPhase.holding }
      else none
    | _ => none
  | .claim w =>
    match s.workers[w]? with
    | some WPhase.holding =>
      match firstFree s.slots with
      | some i =>
        match s.slots[i]? with
        | some sl =>
          some { s with slots := s.slots.set i ⟨true, sl.served⟩
                        workers := s.workers.set w (WPhase.occupying i) }
        | none => none
      | none => some { s with workers := s.workers.set w WPhase.released }
    | _ => none
  | .finishSlot w =>
    match s.workers[w]? with
    | some (WPhase.occupying i) =>
      match s.slots[i]? with
      | some sl =>
        some { s with slots := s.slots.set i ⟨false, sl.served + 1⟩
                      workers := s.workers.set w WPhase.released }
      | none => none
    | _ => none
  | .releaseGate w =>
    match s.workers[w]? with
    | some WPhase.released =>
      some { s with permits := s.permits + 1
                    workers := s.workers.set w WPhase.finished }
    | _ => none

/-- Run a list of steps; `none` if some step is not enabled. -/
def wrun : WState → List WEvent → Option WState
  | s, [] => some s
  | s, e :: rest =>
    match wstep s e with
    | some s' => wrun s' rest
    | none => none

/-- Number of slots whose status is `"active"`. -/
def countActive (l : List Slot) : Nat := l.countP fun sl => sl.active

/-- Sum of `g_parties_served` over all slots (main.cpp lines 276-282). -/
def sumServed (l : List Slot) : Nat := (l.map Slot.served).sum

/-- The worker occupies a slot. -/
def isOcc : WPhase → Bool
  | .occupying _ => true
  | _ => false

/-- The worker holds a gate permit but occupies no slot: it is between
`acquire()` and the slot scan, or between the slot release and the gate
`release()`. -/
def isMid : WPhase → Bool
  | .holding => true
  | .released => true
  | _ => false

/-- The worker has completed its slot phase (its stats update is done). -/
def isDoneSlot : WPhase → Bool
  | .released => true
  | .finished => true
  | _ => false

/-- Count of workers occupying a slot. -/
def occCount (l : List WPhase) : Nat := l.countP isOcc

/-- Count of workers holding a permit without occupying a slot. -/
def midCount (l : List WPhase) : Nat := l.countP isMid

/-- Count of workers past their slot phase. -/
def doneSlotCount (l : List WPhase) : Nat := l.countP isDoneSlot

/-- Whether an event is the dispatcher spawning a worker, i.e. one
successful `try_form_party` call (main.cpp lines 251-253). -/
def isSpawn : WEvent → Bool
  | .spawn => true
  | _ => false

/-! ### List bookkeeping lemmas -/

/-- How `countP` changes under a point update, in additive form. -/
theorem countP_set_add {α : Type} (p : α → Bool) (l : List α) (w : Nat) (x a : α)
    (h : l[w]? = some x) :
    (l.set w a).countP p + (if p x then 1 else 0) =
      l.countP p + (if p a then 1 else 0) := by
  induction l generalizing w with
  | nil => simp at h
  | cons b t ih =>
    cases w with
    | zero =>
      rw [List.getElem?_cons_zero] at h
      cases h
      simp only [List.set, List.countP_cons]
      omega
    | succ w =>
      rw [List.getElem?_cons_succ] at h
      simp only [List.set, List.countP_cons]
      have := ih w h
      omega

/-- How `sumServed` changes under a point update, in additive form. -/
theorem sumServed_set (l : List Slot) (i : Nat) (x a : Slot)
    (h : l[i]? = some x) :
    sumServed (l.set i a) + x.served = sumServed l + a.served := by
  induction l generalizing i with
  | nil => simp at h
  | cons b t ih =>
    cases i with
    | zero =>
      rw [List.getElem?_cons_zero] at h
      cases h
      simp only [List.set, sumServed, List.map, List.sum_cons]
      omega
    | succ i =>
      rw [List.getElem?_cons_succ] at h
      simp only [List.set, sumServed, List.map, List.sum_cons]
      have := ih i h
      simp only [sumServed] at this
      omega

/-- Indexing into a one-element extension. -/
theorem getElem?_concat {α : Type} (l : List α) (a : α) (i : Nat) :
    (l ++ [a])[i]? = if i = l.length then some a else l[i]? := by
  induction l generalizing i with
  | nil =>
    cases i with
    | zero => rfl
    | succ i => simp
  | cons b t ih =>
    cases i with
    | zero => simp
    | succ i =>
      simp only [List.cons_append, List.getElem?_cons_succ, List.length_cons]
      rw [ih i]
      by_cases hi : i = t.length
      · rw [if_pos hi, if_pos (by omega)]
      · rw [if_neg hi, if_neg (by omega)]

/-- A positively tested element at some index gives a positive count. -/
theorem countP_pos_of_get {α : Type} (p : α → Bool) (l : List α) (w : Nat) (x : α)
    (h : l[w]? = some x) (hx : p x = true) : 1 ≤ l.countP p :=
  List.countP_pos_iff.mpr ⟨x, List.getElem?_mem h, hx⟩

/-- The index returned by `firstFree` points at an empty slot. -/
theorem firstFree_some (l : List Slot) (i : Nat) (h : firstFree l = some i) :
    ∃ sl, l[i]? = some sl ∧ sl.active = false := by
  induction l generalizing i with
  | nil => cases h
  | cons b t ih =>
    unfold firstFree at h
    split at h
    · rw [Option.map_eq_some'] at h
      obtain ⟨j, hj, rfl⟩ := h
      obtain ⟨sl, hsl, hact⟩ := ih j hj
      exact ⟨sl, by rw [List.getElem?_cons_succ]; exact hsl, hact⟩
    · cases h
      rename_i hact
      exact ⟨b, List.getElem?_cons_zero, by
        cases hb : b.active
        · rfl
        · exact absurd hb hact⟩

/-- When `firstFree` finds nothing every slot is active. -/
theorem firstFree_none (l : List Slot) (h : firstFree l = none) :
    ∀ sl ∈ l, sl.active = true := by
  induction l with
  | nil => intro sl hsl; cases hsl
  | cons b t ih =>
    unfold firstFree at h
    split at h
    · rw [Option.map_eq_none'] at h
      intro sl hsl
      rcases List.mem_cons.mp hsl with rfl | hmem
      · assumption
      · exact ih h sl hmem
    · cases h

/-- A successful optional lookup is within bounds. -/
theorem lt_length_of_get {α : Type} {l : List α} {w : Nat} {x : α}
    (h : l[w]? = some x) : w < l.length := by
  rcases List.getElem?_eq_some.mp h with ⟨hlt, _⟩
  exact hlt

/-- Updating position `w` makes position `w` read back the new value. -/
theorem getElem?_set_self_of_get {α : Type} {l : List α} {w : Nat} {x : α}
    (a : α) (h : l[w]? = some x) : (l.set w a)[w]? = some a :=
  List.getElem?_set_eq_of_lt a (lt_length_of_get h)

/-- Case analysis for a lookup into an updated list. -/
theorem getElem?_set_cases {α : Type} {l : List α} {w j : Nat} {a x : α}
    (h : (l.set w a)[j]? = some x) :
    (j = w ∧ x = a ∧ w < l.length) ∨ (j ≠ w ∧ l[j]? = some x) := by
  by_cases hj : j = w
  · subst hj
    have hlt : j < l.length := by
      have := lt_length_of_get h
      rw [List.length_set] at this
      exact this
    rw [List.getElem?_set_eq_of_lt a hlt] at h
    cases h
    exact Or.inl ⟨rfl, rfl, hlt⟩
  · rw [List.getElem?_set_ne (Ne.symm hj)] at h
    exact Or.inr ⟨hj, h⟩

/-! ### The gate/registry invariant -/

/-- Inductive invariant of the gate/registry/worker system at capacity `n`:
the semaphore counter plus the permit-holding workers account for `n`; the
counter never goes negative; active slots and occupying workers are in
bijection (each occupier's slot is active, occupiers of a slot are unique,
each active slot has an occupier); and the accumulated `partiesServed` total
equals the number of workers past their stats update. -/
structure WInv (n : Nat) (s : WState) : Prop where
  slots_len : s.slots.length = n
  gate : s.permits + (occCount s.workers : Int) + (midCount s.workers : Int) = (n : Int)
  permits_nonneg : 0 ≤ s.permits
  active_occ : countActive s.slots = occCount s.workers
  occ_active : ∀ (w i : Nat), s.workers[w]? = some (WPhase.occupying i) →
    ∃ sl, s.slots[i]? = some sl ∧ sl.active = true
  occ_unique : ∀ (w w' i : Nat), s.workers[w]? = some (WPhase.occupying i) →
    s.workers[w']? = some (WPhase.occupying i) → w = w'
  active_occupied : ∀ (i : Nat) (sl : Slot), s.slots[i]? = some sl → sl.active = true →
    ∃ w : Nat, s.workers[w]? = some (WPhase.occupying i)
  served_workers : sumServed s.slots = doneSlotCount s.workers

/-- The startup state satisfies the invariant. -/
theorem winv_init (n : Nat) : WInv n (winit n) := by
  refine ⟨?_, ?_, ?_, ?_, ?_, ?_, ?_, ?_⟩
  · simp [winit]
  · simp [winit, occCount, midCount]
  · simp [winit]
  · simp [winit, countActive, occCount, List.countP_replicate, isOcc]
  · intro w i h; simp [winit] at h
  · intro w w' i h h'; simp [winit] at h
  · intro i sl h hact
    simp only [winit] at h
    rw [List.getElem?_replicate] at h
    split at h
    · cases h; cases hact
    · cases h
  · simp [winit, sumServed, doneSlotCount, List.map_replicate, List.sum_replicate]

/-- Step `spawn` preserves the invariant. -/
theorem winv_spawn {n : Nat} {s s' : WState} (inv : WInv n s)
    (h : wstep s WEvent.spawn = some s') : WInv n s' := by
  obtain ⟨hlen, hgate, hperm, hao, hoa, hou, haoc, hsw⟩ := inv
  simp only [wstep] at h
  cases h
  have hocc : occCount (s.workers ++ [WPhase.waiting]) = occCount s.workers := by
    simp [occCount, List.countP_append, List.countP_cons, isOcc]
  have hmid : midCount (s.workers ++ [WPhase.waiting]) = midCount s.workers := by
    simp [midCount, List.countP_append, List.countP_cons, isMid]
  have hdone : doneSlotCount (s.workers ++ [WPhase.waiting]) = doneSlotCount s.workers := by
    simp [doneSlotCount, List.countP_append, List.countP_cons, isDoneSlot]
  refine ⟨hlen, ?_, hperm, ?_, ?_, ?_, ?_, ?_⟩
  · simp only [hocc, hmid]; exact hgate
  · simp only [hocc]; exact hao
  · intro w i hball
    rw [getElem?_concat] at hball
    split at hball
    · simp at hball
    · exact hoa w i hball
  · intro w w' i hb hb'
    rw [getElem?_concat] at hb hb'
    split at hb
    · simp at hb
    · split at hb'
      · simp at hb'
      · exact hou w w' i hb hb'
  · intro i sl hsl hact
    obtain ⟨w, hw⟩ := haoc i sl hsl hact
    refine ⟨w, ?_⟩
    rw [getElem?_concat, if_neg ?_]
    · exact hw
    · have := lt_length_of_get hw
      omega
  · simp only [hdone]; exact hsw

/-- Step `acquire` preserves the invariant. -/
theorem winv_acquire {n : Nat} {s s' : WState} (inv : WInv n s) (w : Nat)
    (h : wstep s (WEvent.acquire w) = some s') : WInv n s' := by
  obtain ⟨hlen, hgate, hperm, hao, hoa, hou, haoc, hsw⟩ := inv
  simp only [wstep] at h
  cases hw : s.workers[w]? with
  | none => rw [hw] at h; cases h
  | some ph =>
    rw [hw] at h
    cases ph <;> try cases h
    case waiting =>
      by_cases hp : 0 < s.permits
      · rw [if_pos hp] at h
        cases h
        have hocc := countP_set_add isOcc s.workers w WPhase.waiting WPhase.holding hw
        have hmid := countP_set_add isMid s.workers w WPhase.waiting WPhase.holding hw
        have hdone := countP_set_add isDoneSlot s.workers w WPhase.waiting WPhase.holding hw
        simp [isOcc, isMid, isDoneSlot] at hocc hmid hdone
        refine ⟨hlen, ?_, by dsimp only; omega, ?_, ?_, ?_, ?_, ?_⟩
        · dsimp only
          simp only [occCount, midCount] at hgate ⊢
          omega
        · dsimp only
          simp only [countActive, occCount] at hao ⊢
          omega
        · intro w' i hball
          rcases getElem?_set_cases hball with ⟨rfl, hxa, _⟩ | ⟨hne, hold⟩
          · cases hxa
          · exact hoa w' i hold
        · intro w1 w2 i hb1 hb2
          rcases getElem?_set_cases hb1 with ⟨rfl, hxa, _⟩ | ⟨hne1, hold1⟩
          · cases hxa
          rcases getElem?_set_cases hb2 with ⟨rfl, hxa, _⟩ | ⟨hne2, hold2⟩
          · cases hxa
          exact hou w1 w2 i hold1 hold2
        · intro i sl hsl hact
          obtain ⟨w', hw'⟩ := haoc i sl hsl hact
          have hne : w' ≠ w := by
            intro hh
            rw [hh, hw] at hw'
            cases hw'
          exact ⟨w', by rw [List.getElem?_set_ne (Ne.symm hne)]; exact hw'⟩
        · dsimp only
          simp only [sumServed, doneSlotCount] at hsw ⊢
          omega
      · rw [if_neg hp] at h
        cases h

/-- Step `claim` preserves the invariant; in particular the scan-failure branch
(`instance_id = -1`) is unreachable from invariant states: a holding worker
always finds an empty slot. -/
theorem winv_claim {n : Nat} {s s' : WState} (inv : WInv n s) (w : Nat)
    (h : wstep s (WEvent.claim w) = some s') : WInv n s' := by
  obtain ⟨hlen, hgate, hperm, hao, hoa, hou, haoc, hsw⟩ := inv
  simp only [wstep] at h
  cases hw : s.workers[w]? with
  | none => rw [hw] at h; cases h
  | some ph =>
    rw [hw] at h
    cases ph <;> try cases h
    case holding =>
      cases hff : firstFree s.slots with
      | some i =>
        rw [hff] at h
        change (match s.slots[i]? with
          | some sl =>
            some { permits := s.permits, slots := s.slots.set i ⟨true, sl.served⟩,
                   workers := s.workers.set w (WPhase.occupying i) }
          | none => none) = some s' at h
        cases hsl : s.slots[i]? with
        | none => rw [hsl] at h; cases h
        | some sl =>
          rw [hsl] at h
          cases h
          obtain ⟨sl2, hsl2, hact2⟩ := firstFree_some s.slots i hff
          rw [hsl] at hsl2
          cases hsl2
          have hocc := countP_set_add isOcc s.workers w WPhase.holding (WPhase.occupying i) hw
          have hmid := countP_set_add isMid s.workers w WPhase.holding (WPhase.occupying i) hw
          have hdone := countP_set_add isDoneSlot s.workers w WPhase.holding (WPhase.occupying i) hw
          simp [isOcc, isMid, isDoneSlot] at hocc hmid hdone
          have hCA := countP_set_add (fun sl => sl.active) s.slots i sl ⟨true, sl.served⟩ hsl
          simp [hact2] at hCA
          have hSS := sumServed_set s.slots i sl ⟨true, sl.served⟩ hsl
          refine ⟨?_, ?_, hperm, ?_, ?_, ?_, ?_, ?_⟩
          · dsimp only; rw [List.length_set]; exact hlen
          · dsimp only
            simp only [occCount, midCount] at hgate ⊢
            omega
          · dsimp only
            simp only [countActive, occCount] at hao hCA ⊢
            omega
          · intro w' j hball
            dsimp only at hball
            rcases getElem?_set_cases hball with ⟨hww, hxa, _⟩ | ⟨hne, hold⟩
            · cases hxa
              refine ⟨⟨true, sl.served⟩, ?_, rfl⟩
              dsimp only
              exact getElem?_set_self_of_get _ hsl
            · obtain ⟨sl', hsl', hact'⟩ := hoa w' j hold
              have hji : j ≠ i := by
                intro hh
                subst hh
                rw [hsl] at hsl'
                cases hsl'
                rw [hact'] at hact2
                cases hact2
              refine ⟨sl', ?_, hact'⟩
              dsimp only
              rw [List.getElem?_set_ne (Ne.symm hji)]
              exact hsl'
          · intro w1 w2 j hb1 hb2
            dsimp only at hb1 hb2
            rcases getElem?_set_cases hb1 with ⟨h1w, hxa1, _⟩ | ⟨hne1, hold1⟩ <;>
              rcases getElem?_set_cases hb2 with ⟨h2w, hxa2, _⟩ | ⟨hne2, hold2⟩
            · rw [h1w, h2w]
            · cases hxa1
              obtain ⟨sl', hsl', hact'⟩ := hoa w2 _ hold2
              rw [hsl] at hsl'
              cases hsl'
              rw [hact'] at hact2
              cases hact2
            · cases hxa2
              obtain ⟨sl', hsl', hact'⟩ := hoa w1 _ hold1
              rw [hsl] at hsl'
              cases hsl'
              rw [hact'] at hact2
              cases hact2
            · exact hou w1 w2 j hold1 hold2
          · intro j sl' hballs hact'
            dsimp only at hballs
            rcases getElem?_set_cases hballs with ⟨hji, hxa, _⟩ | ⟨hji, holds⟩
            · subst hji
              refine ⟨w, ?_⟩
              dsimp only
              exact getElem?_set_self_of_get _ hw
            · obtain ⟨w', hw'⟩ := haoc j sl' holds hact'
              have hwne : w' ≠ w := by
                intro hh
                rw [hh, hw] at hw'
                cases hw'
              refine ⟨w', ?_⟩
              dsimp only
              rw [List.getElem?_set_ne (Ne.symm hwne)]
              exact hw'
          · dsimp only
            simp [sumServed, doneSlotCount] at hsw hSS ⊢
            omega
      | none =>
        rw [hff] at h
        change some { permits := s.permits, slots := s.slots,
                      workers := s.workers.set w WPhase.released } = some s' at h
        cases h
        exfalso
        have hall := firstFree_none s.slots hff
        have hCA : countActive s.slots = s.slots.length :=
          List.countP_eq_length.mpr hall
        have hmid1 : 1 ≤ midCount s.workers :=
          countP_pos_of_get isMid s.workers w WPhase.holding hw rfl
        have h1 : occCount s.workers = n := by rw [← hao, hCA, hlen]
        omega

/-- Step `finishSlot` preserves the invariant. -/
theorem winv_finish {n : Nat} {s s' : WState} (inv : WInv n s) (w : Nat)
    (h : wstep s (WEvent.finishSlot w) = some s') : WInv n s' := by
  obtain ⟨hlen, hgate, hperm, hao, hoa, hou, haoc, hsw⟩ := inv
  simp only [wstep] at h
  cases hw : s.workers[w]? with
  | none => rw [hw] at h; cases h
  | some ph =>
    rw [hw] at h
    cases ph <;> try cases h
    case occupying i =>
      change (match s.slots[i]? with
        | some sl =>
          some { permits := s.permits, slots := s.slots.set i ⟨false, sl.served + 1⟩,
                 workers := s.workers.set w WPhase.released }
        | none => none) = some s' at h
      cases hsl : s.slots[i]? with
      | none => rw [hsl] at h; cases h
      | some sl =>
        rw [hsl] at h
        cases h
        obtain ⟨sl2, hsl2, hact2⟩ := hoa w i hw
        rw [hsl] at hsl2
        cases hsl2
        have hocc := countP_set_add isOcc s.workers w (WPhase.occupying i) WPhase.released hw
        have hmid := countP_set_add isMid s.workers w (WPhase.occupying i) WPhase.released hw
        have hdone := countP_set_add isDoneSlot s.workers w (WPhase.occupying i) WPhase.released hw
        simp [isOcc, isMid, isDoneSlot] at hocc hmid hdone
        have hCA := countP_set_add (fun sl => sl.active) s.slots i sl ⟨false, sl.served + 1⟩ hsl
        simp [hact2] at hCA
        have hSS := sumServed_set s.slots i sl ⟨false, sl.served + 1⟩ hsl
        refine ⟨?_, ?_, hperm, ?_, ?_, ?_, ?_, ?_⟩
        · dsimp only; rw [List.length_set]; exact hlen
        · dsimp only
          simp only [occCount, midCount] at hgate ⊢
          omega
        · dsimp only
          simp only [countActive, occCount] at hao hCA ⊢
          omega
        · intro w' j hball
          dsimp only at hball
          rcases getElem?_set_cases hball with ⟨hww, hxa, _⟩ | ⟨hne, hold⟩
          · cases hxa
          · obtain ⟨sl'', hsl'', hact''⟩ := hoa w' j hold
            have hji : j ≠ i := fun hh => hne (hou w' w i (hh ▸ hold) hw)
            refine ⟨sl'', ?_, hact''⟩
            dsimp only
            rw [List.getElem?_set_ne (Ne.symm hji)]
            exact hsl''
        · intro w1 w2 j hb1 hb2
          dsimp only at hb1 hb2
          rcases getElem?_set_cases hb1 with ⟨h1w, hxa1, _⟩ | ⟨hne1, hold1⟩ <;>
            rcases getElem?_set_cases hb2 with ⟨h2w, hxa2, _⟩ | ⟨hne2, hold2⟩
          · rw [h1w, h2w]
          · cases hxa1
          · cases hxa2
          · exact hou w1 w2 j hold1 hold2
        · intro j sl'' hb hact''
          dsimp only at hb
          rcases getElem?_set_cases hb with ⟨hji, hxa, _⟩ | ⟨hji, holds⟩
          · rw [hxa] at hact''
            cases hact''
          · obtain ⟨w', hw'⟩ := haoc j sl'' holds hact''
            have hwne : w' ≠ w := by
              intro hh
              rw [hh, hw] at hw'
              cases hw'
              exact hji rfl
            refine ⟨w', ?_⟩
            dsimp only
            rw [List.getElem?_set_ne (Ne.symm hwne)]
            exact hw'
        · dsimp only
          simp [sumServed, doneSlotCount] at hsw hSS ⊢
          omega

/-- Step `releaseGate` preserves the invariant. -/
theorem winv_release {n : Nat} {s s' : WState} (inv : WInv n s) (w : Nat)
    (h : wstep s (WEvent.releaseGate w) = some s') : WInv n s' := by
  obtain ⟨hlen, hgate, hperm, hao, hoa, hou, haoc, hsw⟩ := inv
  simp only [wstep] at h
  cases hw : s.workers[w]? with
  | none => rw [hw] at h; cases h
  | some ph =>
    rw [hw] at h
    cases ph <;> try cases h
    case mk.some.released.refl =>
      have hocc := countP_set_add isOcc s.workers w WPhase.released WPhase.finished hw
      have hmid := countP_set_add isMid s.workers w WPhase.released WPhase.finished hw
      have hdone := countP_set_add isDoneSlot s.workers w WPhase.released WPhase.finished hw
      simp [isOcc, isMid, isDoneSlot] at hocc hmid hdone
      refine ⟨hlen, ?_, by dsimp only; omega, ?_, ?_, ?_, ?_, ?_⟩
      · dsimp only
        simp only [occCount, midCount] at hgate ⊢
        omega
      · dsimp only
        simp only [countActive, occCount] at hao ⊢
        omega
      · intro w' j hball
        dsimp only at hball
        rcases getElem?_set_cases hball with ⟨hww, hxa, _⟩ | ⟨hne, hold⟩
        · cases hxa
        · exact hoa w' j hold
      · intro w1 w2 j hb1 hb2
        dsimp only at hb1 hb2
        rcases getElem?_set_cases hb1 with ⟨h1w, hxa1, _⟩ | ⟨hne1, hold1⟩ <;>
          rcases getElem?_set_cases hb2 with ⟨h2w, hxa2, _⟩ | ⟨hne2, hold2⟩
        · rw [h1w, h2w]
        · cases hxa1
        · cases hxa2
        · exact hou w1 w2 j hold1 hold2
      · intro j sl'' hb hact''
        obtain ⟨w', hw'⟩ := haoc j sl'' hb hact''
        have hwne : w' ≠ w := by
          intro hh
          rw [hh, hw] at hw'
          cases hw'
        refine ⟨w', ?_⟩
        dsimp only
        rw [List.getElem?_set_ne (Ne.symm hwne)]
        exact hw'
      · dsimp only
        simp [sumServed, doneSlotCount] at hsw ⊢
        omega

/-- Every enabled step preserves the invariant. -/
theorem winv_step {n : Nat} {s s' : WState} (inv : WInv n s) (e : WEvent)
    (h : wstep s e = some s') : WInv n s' := by
  cases e with
  | spawn => exact winv_spawn inv h
  | acquire w => exact winv_acquire inv w h
  | claim w => exact winv_claim inv w h
  | finishSlot w => exact winv_finish inv w h
  | releaseGate w => exact winv_release inv w h

/-- The invariant holds along every run. -/
theorem winv_run {n : Nat} : ∀ (evs : List WEvent) (s s' : WState),
    WInv n s → wrun s evs = some s' → WInv n s' := by
  intro evs
  induction evs with
  | nil => intro s s' inv h; cases h; exact inv
  | cons e rest ih =>
    intro s s' inv h
    unfold wrun at h
    cases he : wstep s e with
    | none => rw [he] at h; cases h
    | some s1 => rw [he] at h; exact ih s1 s' (winv_step inv e he) h

/-- The number of spawned workers grows only with `spawn` events. -/
theorem wstep_workers_len {s s' : WState} (e : WEvent) (h : wstep s e = some s') :
    s'.workers.length = s.workers.length + (if isSpawn e then 1 else 0) := by
  cases e with
  | spawn =>
    simp only [wstep] at h
    cases h
    simp [isSpawn]
  | acquire w =>
    simp only [wstep] at h
    cases hw : s.workers[w]? with
    | none => rw [hw] at h; cases h
    | some ph =>
      rw [hw] at h
      cases ph <;> try cases h
      case waiting =>
        by_cases hp : 0 < s.permits
        · rw [if_pos hp] at h
          cases h
          simp [isSpawn, List.length_set]
        · rw [if_neg hp] at h; cases h
  | claim w =>
    simp only [wstep] at h
    cases hw : s.workers[w]? with
    | none => rw [hw] at h; cases h
    | some ph =>
      rw [hw] at h
      cases ph <;> try cases h
      case holding =>
        cases hff : firstFree s.slots with
        | some i =>
          rw [hff] at h
          change (match s.slots[i]? with
            | some sl =>
              some { permits := s.permits, slots := s.slots.set i ⟨true, sl.served⟩,
                     workers := s.workers.set w (WPhase.occupying i) }
            | none => none) = some s' at h
          cases hsl : s.slots[i]? with
          | none => rw [hsl] at h; cases h
          | some sl =>
            rw [hsl] at h
            cases h
            simp [isSpawn, List.length_set]
        | none =>
          rw [hff] at h
          change some { permits := s.permits, slots := s.slots,
                        workers := s.workers.set w WPhase.released } = some s' at h
          cases h
          simp [isSpawn, List.length_set]
  | finishSlot w =>
    simp only [wstep] at h
    cases hw : s.workers[w]? with
    | none => rw [hw] at h; cases h
    | some ph =>
      rw [hw] at h
      cases ph <;> try cases h
      case occupying i =>
        change (match s.slots[i]? with
          | some sl =>
            some { permits := s.permits, slots := s.slots.set i ⟨false, sl.served + 1⟩,
                   workers := s.workers.set w WPhase.released }
          | none => none) = some s' at h
        cases hsl : s.slots[i]? with
        | none => rw [hsl] at h; cases h
        | some sl =>
          rw [hsl] at h
          cases h
          simp [isSpawn, List.length_set]
  | releaseGate w =>
    simp only [wstep] at h
    cases hw : s.workers[w]? with
    | none => rw [hw] at h; cases h
    | some ph =>
      rw [hw] at h
      cases ph <;> try cases h
      case releaseGate.some.released.refl => simp [isSpawn, List.length_set]

/-- Along a run, the worker count grows by exactly the number of `spawn`
events, i.e. of successful `try_form_party` calls. -/
theorem wrun_workers_len : ∀ (evs : List WEvent) (s s' : WState),
    wrun s evs = some s' →
    s'.workers.length = s.workers.length + evs.countP isSpawn := by
  intro evs
  induction evs with
  | nil => intro s s' h; cases h; simp
  | cons e rest ih =>
    intro s s' h
    unfold wrun at h
    cases he : wstep s e with
    | none => rw [he] at h; cases h
    | some s1 =>
      rw [he] at h
      have h1 := wstep_workers_len e he
      have h2 := ih s1 s' h
      rw [List.countP_cons]
      omega

/-! ### Concrete worker runs used by the claim theorems -/

/-- Spawn one worker and let it acquire the single gate permit. -/
def c3evs : List WEvent := [WEvent.spawn, WEvent.acquire 0]

/-- State after `c3evs` from `winit 1`: the worker holds the permit but has
not yet claimed a slot. -/
def c3final : WState :=
  { permits := 0, slots := [⟨false, 0⟩], workers := [WPhase.holding] }

/-- Same run continued by the slot claim. -/
def c3wevs : List WEvent := [WEvent.spawn, WEvent.acquire 0, WEvent.claim 0]

/-- State after `c3wevs` from `winit 1`. -/
def c3wfinal : WState :=
  { permits := 0, slots := [⟨true, 0⟩], workers := [WPhase.occupying 0] }

/-- One full worker lifecycle at capacity 1. -/
def c4evs : List WEvent :=
  [WEvent.spawn, WEvent.acquire 0, WEvent.claim 0,
   WEvent.finishSlot 0, WEvent.releaseGate 0]

/-- State after `c4evs` from `winit 1`: everything back to empty, one party
served. -/
def c4final : WState :=
  { permits := 1, slots := [⟨false, 1⟩], workers := [WPhase.finished] }

/-- Claim C3 (counterexample): the active-slot count does NOT always equal
`N` minus the gate's available permits.  With `N = 1`, after a worker's
`acquire` but before its slot claim, zero slots are active while
`N - permits = 1`. -/
theorem slots_gate_counterexample :
    wrun (winit 1) c3evs = some c3final ∧
    countActive c3final.slots = 0 ∧
    c3final.permits = 0 ∧
    (countActive c3final.slots : Int) < (1 : Int) - c3final.permits := by
  decide

/-- Claim C3 (amended): in every reachable state of the gate/registry/worker
system, `0 ≤ activeSlots ≤ N` and `activeSlots ≤ N - permits` with
`0 ≤ permits`; equality `activeSlots = N - permits` holds exactly when no
worker is mid-lifecycle (between `acquire` and its slot claim, or between
its slot release and the gate `release`). -/
theorem slots_gate_bounds (n : Nat) (evs : List WEvent) (s : WState)
    (h : wrun (winit n) evs = some s) :
    countActive s.slots ≤ n ∧ 0 ≤ s.permits ∧
    (countActive s.slots : Int) ≤ (n : Int) - s.permits ∧
    ((countActive s.slots : Int) = (n : Int) - s.permits ↔
      midCount s.workers = 0) := by
  have inv := winv_run evs (winit n) s (winv_init n) h
  obtain ⟨hlen, hgate, hperm, hao, _, _, _, _⟩ := inv
  refine ⟨by omega, hperm, by omega, fun hh => by omega, fun hh => by omega⟩

/-- Witness for `slots_gate_bounds` after a spawn-acquire-claim run. -/
theorem slots_gate_bounds_witness :
    countActive c3wfinal.slots ≤ 1 ∧ 0 ≤ c3wfinal.permits ∧
    (countActive c3wfinal.slots : Int) ≤ ((1 : Nat) : Int) - c3wfinal.permits ∧
    ((countActive c3wfinal.slots : Int) = ((1 : Nat) : Int) - c3wfinal.permits ↔
      midCount c3wfinal.workers = 0) :=
  slots_gate_bounds 1 c3wevs c3wfinal (by decide)

/-- Claim C4: when every spawned worker has finished (all party threads
joined), the sum over all slots of `partiesServed` equals the number of
spawned workers, which equals the number of `spawn` events of the run — one
per successful `try_form_party` call (main.cpp lines 251-253 spawn exactly
one worker per successful compose). -/
theorem served_equals_composed (n : Nat) (evs : List WEvent) (s : WState)
    (h : wrun (winit n) evs = some s)
    (hfin : ∀ ph ∈ s.workers, ph = WPhase.finished) :
    sumServed s.slots = s.workers.length ∧
    s.workers.length = evs.countP isSpawn := by
  have inv := winv_run evs (winit n) s (winv_init n) h
  have hlen := wrun_workers_len evs (winit n) s h
  constructor
  · rw [inv.served_workers]
    unfold doneSlotCount
    exact List.countP_eq_length.mpr (fun a ha => by rw [hfin a ha]; rfl)
  · simpa [winit] using hlen

/-- Witness for `served_equals_composed` on one full lifecycle. -/
theorem served_equals_composed_witness :
    sumServed c4final.slots = c4final.workers.length ∧
    c4final.workers.length = c4evs.countP isSpawn :=
  served_equals_composed 1 c4evs c4final (by decide) (by decide)

end Spec2Proof
